import Mathlib

/-!
Verification of the host-telemetry and backup-inventory reporter
(`scripts/discord-stats-bot.py`).

The Python source is shallowly embedded: pure functions become Lean
functions; every interaction with the operating system (filesystem scans,
directory walks, external commands) is abstracted as an explicit input
(an `FS` record of query functions, a cgroup file content, an inspection
function, the captured lines of a process listing), so that each embedded
function is a pure function of the code's actual inputs.
-/

namespace StatsBot

/-! ## Bounded text formatter

The three report builders in the source share one inlined budgeting loop:

    lines = [headers...]; hidden = 0; max_len = 1800
    current_len = sum(len(line) + 1 for line in lines)
    for line in candidates:
        line_len = len(line) + 1
        if current_len + line_len > max_len: hidden += 1; continue
        lines.append(line); current_len += line_len
    if hidden: lines.append(trailer(hidden))
    return "```\n" + "\n".join(lines) + "\n```"

`packLoop` is that loop; `buildBoundedReport` is the whole pattern with the
header list, candidate list, budget and trailer text as parameters (the
call sites all use budget 1800). -/

/-- Cost the loop charges per line: its length plus one newline. -/
def lineCost (s : String) : Nat := s.length + 1

/-- `sum(len(line) + 1 for line in lines)`. -/
def linesCost (ls : List String) : Nat := (ls.map lineCost).sum

/-- The candidate loop: returns the kept candidate lines (in order) and the
final hidden counter, starting from running length `cur`. -/
def packLoop (maxB : Nat) : List String → Nat → List String × Nat
  | [], _ => ([], 0)
  | c :: rest, cur =>
    if cur + lineCost c > maxB then
      let p := packLoop maxB rest cur
      (p.1, p.2 + 1)
    else
      let p := packLoop maxB rest (cur + lineCost c)
      (c :: p.1, p.2)

/-- Kept candidates of the bounded-report loop started after the headers. -/
def keptOf (hs cs : List String) (maxB : Nat) : List String :=
  (packLoop maxB cs (linesCost hs)).1

/-- Hidden counter of the bounded-report loop started after the headers. -/
def hiddenOf (hs cs : List String) (maxB : Nat) : Nat :=
  (packLoop maxB cs (linesCost hs)).2

/-- The line list produced by the shared budgeting pattern: headers, then
the kept candidates, then one trailer line when anything was hidden. -/
def buildBoundedReport (hs cs : List String) (maxB : Nat)
    (trailerOf : Nat → String) : List String :=
  if hiddenOf hs cs maxB ≠ 0 then
    hs ++ keptOf hs cs maxB ++ [trailerOf (hiddenOf hs cs maxB)]
  else hs ++ keptOf hs cs maxB

/-- `"\n".join(lines) + "\n"`: the text standing between the opening
code fence's newline and the closing fence. -/
def reportBody (lines : List String) : String :=
  String.intercalate "\n" lines ++ "\n"

/-- `"```\n" + "\n".join(lines) + "\n```"`. -/
def fence (lines : List String) : String :=
  "```\n" ++ String.intercalate "\n" lines ++ "\n```"

/-! Spec-side restatement of the formatter (§4.5 and the `ReportBudget`
data model of the specification): a left fold over an explicit budget
state, appending a candidate exactly when
`currentLength + len(candidate) + 1 ≤ maxBytes` and otherwise only
incrementing `hiddenCount`, never stopping early. -/

/-- The specification's `ReportBudget` formatter state. -/
structure ReportBudget where
  lines : List String
  currentLength : Nat
  hiddenCount : Nat

/-- One candidate step of the specification's budgeting algorithm. -/
def specStep (maxB : Nat) (st : ReportBudget) (c : String) : ReportBudget :=
  if st.currentLength + c.length + 1 ≤ maxB then
    { lines := st.lines ++ [c]
      currentLength := st.currentLength + c.length + 1
      hiddenCount := st.hiddenCount }
  else
    { st with hiddenCount := st.hiddenCount + 1 }

/-- The specification's `buildBoundedReport`, written as a fold over the
`ReportBudget` state. -/
def specBoundedReport (hs cs : List String) (maxB : Nat)
    (trailerOf : Nat → String) : List String :=
  let st := cs.foldl (specStep maxB) ⟨hs, linesCost hs, 0⟩
  if st.hiddenCount > 0 then st.lines ++ [trailerOf st.hiddenCount] else st.lines

/-! ### Formatter lemmas -/

theorem packLoop_nil (maxB : Nat) (cur : Nat) : packLoop maxB [] cur = ([], 0) := rfl

theorem packLoop_cons_fst (maxB : Nat) (c : String) (rest : List String) (cur : Nat) :
    (packLoop maxB (c :: rest) cur).1 =
      if cur + lineCost c > maxB then (packLoop maxB rest cur).1
      else c :: (packLoop maxB rest (cur + lineCost c)).1 := by
  by_cases h : cur + lineCost c > maxB <;> simp [packLoop, h]

theorem packLoop_cons_snd (maxB : Nat) (c : String) (rest : List String) (cur : Nat) :
    (packLoop maxB (c :: rest) cur).2 =
      if cur + lineCost c > maxB then (packLoop maxB rest cur).2 + 1
      else (packLoop maxB rest (cur + lineCost c)).2 := by
  by_cases h : cur + lineCost c > maxB <;> simp [packLoop, h]

/-- Budget invariant of the loop: whatever was kept still fits. -/
theorem packLoop_fits (maxB : Nat) :
    ∀ (cs : List String) (cur : Nat), cur ≤ maxB →
      cur + linesCost (packLoop maxB cs cur).1 ≤ maxB := by
  intro cs
  induction cs with
  | nil => intro cur h; simpa [packLoop, linesCost] using h
  | cons c rest ih =>
    intro cur h
    rw [packLoop_cons_fst]
    by_cases hc : cur + lineCost c > maxB
    · rw [if_pos hc]; exact ih cur h
    · rw [if_neg hc]
      push_neg at hc
      have := ih (cur + lineCost c) hc
      simp only [linesCost, List.map_cons, List.sum_cons] at this ⊢
      omega

/-- Every candidate is either kept or counted hidden. -/
theorem packLoop_count (maxB : Nat) :
    ∀ (cs : List String) (cur : Nat),
      (packLoop maxB cs cur).1.length + (packLoop maxB cs cur).2 = cs.length := by
  intro cs
  induction cs with
  | nil => intro cur; simp [packLoop]
  | cons c rest ih =>
    intro cur
    rw [packLoop_cons_fst, packLoop_cons_snd]
    by_cases hc : cur + lineCost c > maxB
    · rw [if_pos hc, if_pos hc]
      have := ih cur
      simp only [List.length_cons]
      omega
    · rw [if_neg hc, if_neg hc]
      have := ih (cur + lineCost c)
      simp only [List.length_cons]
      omega

theorem length_intercalate_go (s : String) :
    ∀ (l : List String) (acc : String),
      (String.intercalate.go acc s l).length =
        acc.length + (l.map (fun a => s.length + a.length)).sum := by
  intro l
  induction l with
  | nil => intro acc; simp [String.intercalate.go]
  | cons a as ih =>
    intro acc
    simp only [String.intercalate.go, ih, List.map_cons, List.sum_cons,
      String.length_append]
    omega

/-- The body's length is exactly the cost the loop accounts for
(one newline per line), for a nonempty line list. -/
theorem reportBody_length (lines : List String) (h : lines ≠ []) :
    (reportBody lines).length = linesCost lines := by
  cases lines with
  | nil => exact absurd rfl h
  | cons a as =>
    have hn : ("\n" : String).length = 1 := rfl
    show (String.intercalate "\n" (a :: as) ++ "\n").length = _
    have hgo : String.intercalate "\n" (a :: as) = String.intercalate.go a "\n" as := rfl
    rw [String.length_append, hgo, length_intercalate_go, hn]
    have hmap : (as.map fun x => ("\n" : String).length + x.length) = as.map lineCost := by
      apply List.map_congr_left
      intro x _
      rw [hn, lineCost]
      omega
    rw [hn] at hmap
    rw [hmap]
    simp only [linesCost, lineCost, List.map_cons, List.sum_cons]
    omega

theorem linesCost_append (l1 l2 : List String) :
    linesCost (l1 ++ l2) = linesCost l1 + linesCost l2 := by
  simp [linesCost]

/-- The code's loop and the specification's `ReportBudget` fold agree,
state by state. -/
theorem foldl_specStep_eq (maxB : Nat) :
    ∀ (cs : List String) (st : ReportBudget),
      (cs.foldl (specStep maxB) st).lines
          = st.lines ++ (packLoop maxB cs st.currentLength).1
      ∧ (cs.foldl (specStep maxB) st).hiddenCount
          = st.hiddenCount + (packLoop maxB cs st.currentLength).2 := by
  intro cs
  induction cs with
  | nil => intro st; simp [packLoop]
  | cons c rest ih =>
    intro st
    rw [List.foldl_cons, packLoop_cons_fst, packLoop_cons_snd]
    have hcost : st.currentLength + lineCost c = st.currentLength + c.length + 1 := by
      simp [lineCost]; omega
    by_cases hc : st.currentLength + lineCost c > maxB
    · rw [if_pos hc, if_pos hc]
      have hstep : specStep maxB st c = { st with hiddenCount := st.hiddenCount + 1 } := by
        have hgt : ¬ (st.currentLength + c.length + 1 ≤ maxB) := by omega
        simp [specStep, hgt]
      rw [hstep]
      have h2 := ih { st with hiddenCount := st.hiddenCount + 1 }
      refine ⟨h2.1, ?_⟩
      rw [h2.2]
      simp only []
      omega
    · rw [if_neg hc, if_neg hc]
      have hle : st.currentLength + c.length + 1 ≤ maxB := by omega
      have hstep : specStep maxB st c =
          ⟨st.lines ++ [c], st.currentLength + c.length + 1, st.hiddenCount⟩ := by
        simp [specStep, hle]
      rw [hstep, hcost]
      exact ⟨by rw [(ih _).1, List.append_assoc]; rfl, (ih _).2⟩

/-- C2: the bounded-report builder processes candidates in order, appends a
candidate exactly when `currentLength + len + 1 ≤ maxBytes` (incrementing
the hidden counter otherwise) and never stops early — it coincides with the
specification's `ReportBudget` fold; headers are always a prefix of the
output even when they alone exceed the budget; and concretely a short
candidate after a dropped longer one is still appended. -/
theorem buildBoundedReport_greedy_spec :
    ∀ (hs cs : List String) (maxB : Nat) (trailerOf : Nat → String),
      buildBoundedReport hs cs maxB trailerOf = specBoundedReport hs cs maxB trailerOf
      ∧ hs <+: buildBoundedReport hs cs maxB trailerOf
      ∧ buildBoundedReport ["hh"] [String.mk (List.replicate 20 'a'), "b"] 10
          (fun n => "+" ++ toString n) = ["hh", "b", "+1"] := by
  intro hs cs maxB trailerOf
  refine ⟨?_, ?_, by set_option maxRecDepth 4096 in decide⟩
  · have h := foldl_specStep_eq maxB cs ⟨hs, linesCost hs, 0⟩
    simp only [specBoundedReport, buildBoundedReport, keptOf, hiddenOf]
    rw [h.1, h.2]
    simp only [Nat.zero_add]
    by_cases hh : (packLoop maxB cs (linesCost hs)).2 = 0
    · simp [hh]
    · have hpos : 0 < (packLoop maxB cs (linesCost hs)).2 := Nat.pos_of_ne_zero hh
      simp only [hh, hpos, if_pos, ne_eq, not_false_iff, if_true, List.append_assoc]
  · rw [buildBoundedReport]
    by_cases hh : hiddenOf hs cs maxB ≠ 0
    · rw [if_pos hh]
      exact ⟨keptOf hs cs maxB ++ [trailerOf (hiddenOf hs cs maxB)], by
        rw [List.append_assoc]⟩
    · rw [if_neg hh]
      exact ⟨keptOf hs cs maxB, rfl⟩

/-- The backup-index report's trailer line (`"... ir dar {hidden} backup įrašų"`). -/
def idxTrailer (n : Nat) : String := "... ir dar " ++ toString n ++ " backup įrašų"

/-- The file-manifest report's trailer line (`"... ir dar {hidden} failų"`). -/
def filesTrailer (n : Nat) : String := "... ir dar " ++ toString n ++ " failų"

/-- C1 counterexample: the trailer line is appended without any budget
check, so the body can exceed 1800 by far more than one newline: with a
4-byte header and a candidate filling the budget exactly, one dropped
candidate forces a 26-byte trailer, giving a 1826-byte body. -/
theorem bounded_report_exceeds_budget :
    1800 + 1 < (reportBody (buildBoundedReport ["hdr"]
      [String.mk (List.replicate 1795 'a'), "b"] 1800 idxTrailer)).length := by
  set_option maxRecDepth 100000 in decide

/-- C1 (amended): provided the (nonempty) header lines fit within
`maxBytes`, the body exceeds `maxBytes` by at most one trailer line plus
its newline; and whenever at least one candidate is dropped, exactly one
trailer line is appended, whose count equals the exact number of dropped
candidates. -/
theorem bounded_report_body_bound (hs cs : List String) (maxB : Nat)
    (trailerOf : Nat → String) (hne : hs ≠ []) (hfit : linesCost hs ≤ maxB) :
    (reportBody (buildBoundedReport hs cs maxB trailerOf)).length
        ≤ maxB + (if hiddenOf hs cs maxB ≠ 0
            then lineCost (trailerOf (hiddenOf hs cs maxB)) else 0)
    ∧ (hiddenOf hs cs maxB ≠ 0 →
        buildBoundedReport hs cs maxB trailerOf
          = hs ++ keptOf hs cs maxB ++ [trailerOf (hiddenOf hs cs maxB)]
        ∧ (keptOf hs cs maxB).length + hiddenOf hs cs maxB = cs.length) := by
  have hkept : linesCost hs + linesCost (keptOf hs cs maxB) ≤ maxB :=
    packLoop_fits maxB cs (linesCost hs) hfit
  constructor
  · rw [buildBoundedReport]
    by_cases hh : hiddenOf hs cs maxB ≠ 0
    · rw [if_pos hh, if_pos hh]
      have hne2 : hs ++ keptOf hs cs maxB ++ [trailerOf (hiddenOf hs cs maxB)] ≠ [] := by
        simp
      rw [reportBody_length _ hne2, linesCost_append, linesCost_append]
      have : linesCost [trailerOf (hiddenOf hs cs maxB)]
          = lineCost (trailerOf (hiddenOf hs cs maxB)) := by
        simp [linesCost]
      rw [this]
      omega
    · rw [if_neg hh, if_neg hh]
      have hne2 : hs ++ keptOf hs cs maxB ≠ [] := by
        intro hcon
        exact hne (List.append_eq_nil.mp hcon).1
      rw [reportBody_length _ hne2, linesCost_append]
      omega
  · intro hh
    refine ⟨by rw [buildBoundedReport, if_pos hh], ?_⟩
    exact packLoop_count maxB cs (linesCost hs)

/-- Witness for the amended C1 at a concrete input: header `"h"`, budget 8,
candidates `["aaaa", "bb"]` — the second candidate is dropped and the
trailer `"+1"` is appended. -/
theorem bounded_report_body_bound_witness :
    (["h"] ≠ ([] : List String)) ∧ linesCost ["h"] ≤ 8 ∧
    ((reportBody (buildBoundedReport ["h"] ["aaaa", "bb"] 8 (fun n => "+" ++ toString n))).length
        ≤ 8 + (if hiddenOf ["h"] ["aaaa", "bb"] 8 ≠ 0
            then lineCost ((fun n => "+" ++ toString n) (hiddenOf ["h"] ["aaaa", "bb"] 8)) else 0)
    ∧ (hiddenOf ["h"] ["aaaa", "bb"] 8 ≠ 0 →
        buildBoundedReport ["h"] ["aaaa", "bb"] 8 (fun n => "+" ++ toString n)
          = ["h"] ++ keptOf ["h"] ["aaaa", "bb"] 8
              ++ [(fun n => "+" ++ toString n) (hiddenOf ["h"] ["aaaa", "bb"] 8)]
        ∧ (keptOf ["h"] ["aaaa", "bb"] 8).length + hiddenOf ["h"] ["aaaa", "bb"] 8 = 2)) :=
  ⟨by decide, by decide,
    bounded_report_body_bound ["h"] ["aaaa", "bb"] 8 (fun n => "+" ++ toString n)
      (by decide) (by decide)⟩

/-! ## Backup timestamp parsing

`parse_backup_ts(name)` is `datetime.strptime(name, "%Y-%m-%d_%H-%M")`
with `ValueError → None`.  CPython's `_strptime` compiles the format to
the regex

    (?P<Y>\d\d\d\d)-(?P<m>1[0-2]|0[1-9]|[1-9])-(?P<d>3[01]|[12]\d|0[1-9]|[1-9])
    _(?P<H>2[0-3]|[0-1]\d|\d)-(?P<M>[0-5]\d|\d)

which must match the whole string, after which the `datetime` constructor
additionally validates the calendar date (year ≥ 1, day within the month,
leap years).  Each field parser below commits to the longest alternative
first; this is equivalent to the backtracking regex because after every
field the format demands a non-digit literal (or the end), so a shorter
alternative can never rescue a failed longer one. -/

/-- A parsed `%Y-%m-%d_%H-%M` timestamp (the payload of a `datetime`). -/
structure Ts where
  y : Nat
  mo : Nat
  d : Nat
  h : Nat
  mi : Nat
deriving DecidableEq, Inhabited

/-- Numeric value of a digit character. -/
def dval (c : Char) : Nat := c.toNat - 48

/-- `%Y`: exactly four digits. -/
def parse4 : List Char → Option (Nat × List Char)
  | a :: b :: c :: d :: rest =>
    if a.isDigit ∧ b.isDigit ∧ c.isDigit ∧ d.isDigit then
      some (dval a * 1000 + dval b * 100 + dval c * 10 + dval d, rest)
    else none
  | _ => none

/-- `%m`: `1[0-2]|0[1-9]|[1-9]`. -/
def parseMonth : List Char → Option (Nat × List Char)
  | [] => none
  | c :: rest =>
    if ¬ c.isDigit then none
    else if dval c = 1 then
      match rest with
      | c2 :: rest2 =>
        if c2.isDigit ∧ dval c2 ≤ 2 then some (10 + dval c2, rest2) else some (1, rest)
      | [] => some (1, [])
    else if dval c = 0 then
      match rest with
      | c2 :: rest2 =>
        if c2.isDigit ∧ 1 ≤ dval c2 then some (dval c2, rest2) else none
      | [] => none
    else some (dval c, rest)

/-- `%d`: `3[01]|[12]\d|0[1-9]|[1-9]`. -/
def parseDay : List Char → Option (Nat × List Char)
  | [] => none
  | c :: rest =>
    if ¬ c.isDigit then none
    else if dval c = 3 then
      match rest with
      | c2 :: rest2 =>
        if c2.isDigit ∧ dval c2 ≤ 1 then some (30 + dval c2, rest2) else some (3, rest)
      | [] => some (3, [])
    else if dval c = 1 ∨ dval c = 2 then
      match rest with
      | c2 :: rest2 =>
        if c2.isDigit then some (10 * dval c + dval c2, rest2) else some (dval c, rest)
      | [] => some (dval c, [])
    else if dval c = 0 then
      match rest with
      | c2 :: rest2 =>
        if c2.isDigit ∧ 1 ≤ dval c2 then some (dval c2, rest2) else none
      | [] => none
    else some (dval c, rest)

/-- `%H`: `2[0-3]|[0-1]\d|\d`. -/
def parseHour : List Char → Option (Nat × List Char)
  | [] => none
  | c :: rest =>
    if ¬ c.isDigit then none
    else if dval c = 2 then
      match rest with
      | c2 :: rest2 =>
        if c2.isDigit ∧ dval c2 ≤ 3 then some (20 + dval c2, rest2) else some (2, rest)
      | [] => some (2, [])
    else if dval c ≤ 1 then
      match rest with
      | c2 :: rest2 =>
        if c2.isDigit then some (10 * dval c + dval c2, rest2) else some (dval c, rest)
      | [] => some (dval c, [])
    else some (dval c, rest)

/-- `%M`: `[0-5]\d|\d`. -/
def parseMinute : List Char → Option (Nat × List Char)
  | [] => none
  | c :: rest =>
    if ¬ c.isDigit then none
    else if dval c ≤ 5 then
      match rest with
      | c2 :: rest2 =>
        if c2.isDigit then some (10 * dval c + dval c2, rest2) else some (dval c, rest)
      | [] => some (dval c, [])
    else some (dval c, rest)

/-- A literal character of the format. -/
def expectChar (c : Char) : List Char → Option (List Char)
  | [] => none
  | c2 :: rest => if c2 = c then some rest else none

/-- Gregorian leap-year rule, as validated by `datetime`. -/
def isLeap (y : Nat) : Bool := y % 4 = 0 ∧ (y % 100 ≠ 0 ∨ y % 400 = 0)

/-- Days in a month, as validated by `datetime`. -/
def daysInMonth (y mo : Nat) : Nat :=
  if mo = 2 then (if isLeap y then 29 else 28)
  else if mo = 4 ∨ mo = 6 ∨ mo = 9 ∨ mo = 11 then 30
  else 31

/-- `datetime.strptime(name, "%Y-%m-%d_%H-%M")`, `ValueError → None`. -/
def parse_backup_ts (name : String) : Option Ts := do
  let (y, r) ← parse4 name.data
  let r ← expectChar '-' r
  let (mo, r) ← parseMonth r
  let r ← expectChar '-' r
  let (d, r) ← parseDay r
  let r ← expectChar '_' r
  let (h, r) ← parseHour r
  let r ← expectChar '-' r
  let (mi, r) ← parseMinute r
  if r = [] ∧ 1 ≤ y ∧ d ≤ daysInMonth y mo then some ⟨y, mo, d, h, mi⟩ else none

/-- The component ranges `datetime` guarantees for any value it accepts. -/
def validTs (t : Ts) : Prop :=
  1 ≤ t.y ∧ t.y ≤ 9999 ∧ 1 ≤ t.mo ∧ t.mo ≤ 12 ∧ 1 ≤ t.d ∧
    t.d ≤ daysInMonth t.y t.mo ∧ t.h ≤ 23 ∧ t.mi ≤ 59

instance (t : Ts) : Decidable (validTs t) := by
  unfold validTs
  infer_instance

/-- The digit character for `d ≤ 9`. -/
def digitChar (d : Nat) : Char := Char.ofNat (48 + d)

/-- Two-digit zero-padded rendering (`%m`, `%d`, `%H`, `%M` of `strftime`). -/
def pad2chars (n : Nat) : List Char := [digitChar (n / 10 % 10), digitChar (n % 10)]

/-- Four-digit rendering of a year `1000 ≤ y ≤ 9999` (`%Y` of `strftime`). -/
def year4 (y : Nat) : List Char :=
  [digitChar (y / 1000 % 10), digitChar (y / 100 % 10), digitChar (y / 10 % 10),
    digitChar (y % 10)]

/-- `ts.strftime("%Y-%m-%d_%H-%M")`: the directory-name format. -/
def fmt_backup_ts (t : Ts) : String :=
  String.mk (year4 t.y ++ '-' :: pad2chars t.mo ++ '-' :: pad2chars t.d
    ++ '_' :: pad2chars t.h ++ '-' :: pad2chars t.mi)

/-- `ts.strftime("%Y-%m-%d %H:%M")`: the display format used in reports. -/
def tsDisplay (t : Ts) : String :=
  String.mk (year4 t.y ++ '-' :: pad2chars t.mo ++ '-' :: pad2chars t.d
    ++ ' ' :: pad2chars t.h ++ ':' :: pad2chars t.mi)

/-! ### Round-trip lemmas for the timestamp format -/

theorem dval_digitChar (d : Nat) (h : d ≤ 9) :
    (digitChar d).isDigit = true ∧ dval (digitChar d) = d := by
  interval_cases d <;> exact ⟨by decide, by decide⟩

theorem parse4_year4 (y : Nat) (hy : y ≤ 9999) (r : List Char) :
    parse4 (year4 y ++ r) = some (y, r) := by
  have e1 := dval_digitChar (y / 1000 % 10) (by omega)
  have e2 := dval_digitChar (y / 100 % 10) (by omega)
  have e3 := dval_digitChar (y / 10 % 10) (by omega)
  have e4 := dval_digitChar (y % 10) (by omega)
  show parse4 (digitChar (y / 1000 % 10) :: digitChar (y / 100 % 10)
      :: digitChar (y / 10 % 10) :: digitChar (y % 10) :: r) = some (y, r)
  simp only [parse4]
  rw [if_pos ⟨e1.1, e2.1, e3.1, e4.1⟩, e1.2, e2.2, e3.2, e4.2]
  simp only [Option.some.injEq, Prod.mk.injEq]
  exact ⟨by omega, trivial⟩

theorem parseMonth_pad2 (mo : Nat) (h1 : 1 ≤ mo) (h2 : mo ≤ 12) (r : List Char) :
    parseMonth (pad2chars mo ++ r) = some (mo, r) := by
  interval_cases mo <;> rfl

theorem parseDay_pad2 (d : Nat) (h1 : 1 ≤ d) (h2 : d ≤ 31) (r : List Char) :
    parseDay (pad2chars d ++ r) = some (d, r) := by
  interval_cases d <;> rfl

theorem parseHour_pad2 (h : Nat) (h2 : h ≤ 23) (r : List Char) :
    parseHour (pad2chars h ++ r) = some (h, r) := by
  interval_cases h <;> rfl

theorem parseMinute_pad2 (mi : Nat) (h2 : mi ≤ 59) (r : List Char) :
    parseMinute (pad2chars mi ++ r) = some (mi, r) := by
  interval_cases mi <;> rfl

theorem expectChar_self (c : Char) (r : List Char) : expectChar c (c :: r) = some r := by
  simp [expectChar]

/-- Any calendar-valid timestamp with a four-digit year, rendered in the
canonical zero-padded directory-name format, parses back to itself. -/
theorem parse_fmt_backup_ts (t : Ts) (hv : validTs t) (hy : 1000 ≤ t.y) :
    parse_backup_ts (fmt_backup_ts t) = some t := by
  obtain ⟨y, mo, d, h, mi⟩ := t
  obtain ⟨h1, h2, h3, h4, h5, h6, h7, h8⟩ := hv
  simp only at h1 h2 h3 h4 h5 h6 h7 h8 hy
  have hdata : (fmt_backup_ts ⟨y, mo, d, h, mi⟩).data
      = year4 y ++ '-' :: (pad2chars mo ++ '-' :: (pad2chars d ++ '_' ::
          (pad2chars h ++ '-' :: (pad2chars mi ++ [])))) := by
    simp [fmt_backup_ts]
  have hd31 : d ≤ 31 := by
    have : daysInMonth y mo ≤ 31 := by
      unfold daysInMonth
      split <;> (try split) <;> omega
    omega
  simp only [parse_backup_ts, hdata, parse4_year4 y h2, Option.bind_eq_bind,
    Option.some_bind, expectChar_self, parseMonth_pad2 mo h3 h4,
    parseDay_pad2 d h5 hd31, parseHour_pad2 h h7, parseMinute_pad2 mi h8]
  rw [if_pos ⟨trivial, h1, h6⟩]

/-! ## Filesystem model and the backup inventory engine

The inventory functions only query the filesystem through `os.path.abspath`,
`os.path.isdir`, `os.scandir`, `os.walk`, `os.path.islink` and
`os.path.getsize`; an `FS` value packages those queries as pure functions.
A `WalkEnt` is one file name yielded by `os.walk(path)` (the walk already
flattened to paths relative to `path`, exactly the `os.path.relpath` the code
computes): `isLink` is `os.path.islink` on it, and `size` is the result of
`os.path.getsize` — which follows symbolic links — with `none` for an
`OSError`. -/

/-- One entry yielded by `os.scandir`. -/
structure DirEnt where
  name : String
  isDir : Bool
deriving DecidableEq

/-- One file yielded by an `os.walk` over some root, with its path relative
to that root, its `islink` status, and its `getsize` result (`none` =
`OSError`). -/
structure WalkEnt where
  relPath : String
  isLink : Bool
  size : Option Nat
deriving DecidableEq

/-- The filesystem queries the backup inventory engine performs. -/
structure FS where
  abspath : String → String
  isdir : String → Bool
  scandir : String → Option (List DirEnt)
  walkEntries : String → List WalkEnt

/-- A backup inventory entry: `(ts, entry.name, base_dir)`. -/
structure BEntry where
  ts : Ts
  name : String
  root : String
deriving DecidableEq, Inhabited

/-- `datetime` comparison (lexicographic on the components). -/
def tsLe (a b : Ts) : Bool :=
  decide (a.y < b.y) || (decide (a.y = b.y) &&
    (decide (a.mo < b.mo) || (decide (a.mo = b.mo) &&
      (decide (a.d < b.d) || (decide (a.d = b.d) &&
        (decide (a.h < b.h) || (decide (a.h = b.h) &&
          decide (a.mi ≤ b.mi))))))))

/-- Newest-first order on inventory entries (`reverse=True` sort key). -/
def entGe (a b : BEntry) : Prop := tsLe b.ts a.ts = true

instance : DecidableRel entGe := fun a b => by
  unfold entGe
  infer_instance

theorem tsLe_total (a b : Ts) : tsLe a b = true ∨ tsLe b a = true := by
  simp only [tsLe, Bool.or_eq_true, Bool.and_eq_true, decide_eq_true_eq]
  omega

theorem tsLe_trans (a b c : Ts) (h1 : tsLe a b = true) (h2 : tsLe b c = true) :
    tsLe a c = true := by
  simp only [tsLe, Bool.or_eq_true, Bool.and_eq_true, decide_eq_true_eq] at *
  omega

instance : IsTotal BEntry entGe :=
  ⟨fun a b => (tsLe_total b.ts a.ts).imp id id⟩

instance : IsTrans BEntry entGe :=
  ⟨fun _ _ _ h1 h2 => tsLe_trans _ _ _ h2 h1⟩

/-- `backups.sort(key=itemgetter-timestamp, reverse=True)`: a stable sort,
newest first (extensionally, stable insertion sort under `entGe`). -/
def sortBackups (l : List BEntry) : List BEntry := List.insertionSort entGe l

/-- Scanning one existing root directory: every direct subdirectory whose
name parses as a backup timestamp becomes an entry (scandir failure scans
nothing). -/
def scanRoot (fs : FS) (root : String) : List BEntry :=
  match fs.scandir root with
  | none => []
  | some ents =>
    ents.filterMap fun en =>
      if en.isDir then (parse_backup_ts en.name).map (fun ts => ⟨ts, en.name, root⟩)
      else none

/-- One iteration of the root loop of `list_backups`: skip empty strings,
resolve to an absolute path, skip roots already seen, record the root as
seen, and scan it when it is a directory. -/
def scanStep (fs : FS) (acc : List BEntry × List String) (dir : String) :
    List BEntry × List String :=
  if dir = "" then acc
  else if fs.abspath dir ∈ acc.2 then acc
  else if fs.isdir (fs.abspath dir) then
    (acc.1 ++ scanRoot fs (fs.abspath dir), fs.abspath dir :: acc.2)
  else (acc.1, fs.abspath dir :: acc.2)

/-- `list_backups()`: scan the primary and fallback roots with
de-duplication, then sort newest first. -/
def list_backups (fs : FS) (b f : String) : List BEntry :=
  sortBackups (([b, f].foldl (scanStep fs) ([], [])).1)

/-! ### Inventory lemmas -/

theorem mem_scanRoot_parse (fs : FS) (root : String) (e : BEntry)
    (h : e ∈ scanRoot fs root) : parse_backup_ts e.name = some e.ts := by
  unfold scanRoot at h
  cases hsc : fs.scandir root with
  | none => rw [hsc] at h; simp at h
  | some ents =>
    rw [hsc] at h
    obtain ⟨en, _, hf⟩ := List.mem_filterMap.mp h
    by_cases hd : en.isDir
    · rw [if_pos hd] at hf
      obtain ⟨ts, hts, he⟩ := Option.map_eq_some'.mp hf
      subst he
      exact hts
    · rw [if_neg hd] at hf
      exact absurd hf (by simp)

theorem mem_scan_foldl_parse (fs : FS) :
    ∀ (dirs : List String) (acc : List BEntry × List String),
      (∀ e ∈ acc.1, parse_backup_ts e.name = some e.ts) →
      ∀ e ∈ (dirs.foldl (scanStep fs) acc).1, parse_backup_ts e.name = some e.ts := by
  intro dirs
  induction dirs with
  | nil => intro acc hacc e he; exact hacc e he
  | cons dir rest ih =>
    intro acc hacc e he
    refine ih (scanStep fs acc dir) ?_ e he
    intro e2 he2
    unfold scanStep at he2
    split at he2
    · exact hacc e2 he2
    · split at he2
      · exact hacc e2 he2
      · split at he2
        · rcases List.mem_append.mp he2 with h | h
          · exact hacc e2 h
          · exact mem_scanRoot_parse fs _ e2 h
        · exact hacc e2 he2

/-- Every entry of the inventory carries the parse of its own name. -/
theorem mem_list_backups_parse (fs : FS) (b f : String) (e : BEntry)
    (h : e ∈ list_backups fs b f) : parse_backup_ts e.name = some e.ts := by
  unfold list_backups sortBackups at h
  have hp := (List.perm_insertionSort entGe (([b, f].foldl (scanStep fs) ([], [])).1)).mem_iff.mp h
  exact mem_scan_foldl_parse fs [b, f] ([], []) (by intro e he; simp at he) e hp

/-- A filesystem whose single backup root contains one directory with a
non-zero-padded month field, which `strptime` accepts. -/
def fsLenient : FS where
  abspath := fun s => s
  isdir := fun s => s = "/b"
  scandir := fun s => if s = "/b" then some [⟨"2024-1-02_10-00", true⟩] else none
  walkEntries := fun _ => []

/-- C4 counterexample: `strptime("%Y-%m-%d_%H-%M")` accepts non-zero-padded
fields, so `list_backups` includes the directory `2024-1-02_10-00`, which
does not match `YYYY-MM-DD_HH-MM` exactly and whose parsed timestamp
renders back as `2024-01-02_10-00`, a different string. -/
theorem list_backups_nonpadded_name :
    (list_backups fsLenient "/b" "/fb").map (fun e => (e.name, fmt_backup_ts e.ts))
        = [("2024-1-02_10-00", "2024-01-02_10-00")]
    ∧ ("2024-01-02_10-00" : String) ≠ "2024-1-02_10-00" :=
  ⟨by decide, by decide⟩

/-- C4 (amended): `list_backups` includes an entry only if its directory
name parses under `strptime("%Y-%m-%d_%H-%M")` (which also accepts
non-zero-padded month/day/hour/minute fields), the entry's timestamp being
exactly that parse; and every calendar-valid timestamp with a four-digit
year, rendered in the canonical zero-padded form of that format, parses
back to itself — so canonical names round-trip exactly. -/
theorem list_backups_parse_roundtrip :
    (∀ (fs : FS) (b f : String) (e : BEntry),
        e ∈ list_backups fs b f → parse_backup_ts e.name = some e.ts)
    ∧ (∀ t : Ts, validTs t → 1000 ≤ t.y →
        parse_backup_ts (fmt_backup_ts t) = some t) :=
  ⟨mem_list_backups_parse, parse_fmt_backup_ts⟩

/-- A filesystem where the two configured roots resolve to the same
absolute path holding two backup directories and one stray directory. -/
def fsDup : FS where
  abspath := fun _ => "/A"
  isdir := fun s => s = "/A"
  scandir := fun s =>
    if s = "/A" then
      some [⟨"2024-01-01_10-00", true⟩, ⟨"2024-01-02_09-30", true⟩, ⟨"notes", true⟩]
    else none
  walkEntries := fun _ => []

/-- Witness for C4 at concrete inputs: the sole entry of `fsLenient`-like
padded scan parses to its timestamp, and `2024-01-02_10-00` round-trips. -/
theorem list_backups_parse_roundtrip_witness :
    parse_backup_ts (BEntry.name ⟨⟨2024, 1, 1, 10, 0⟩, "2024-01-01_10-00", "/A"⟩)
        = some (BEntry.ts ⟨⟨2024, 1, 1, 10, 0⟩, "2024-01-01_10-00", "/A"⟩)
    ∧ parse_backup_ts (fmt_backup_ts ⟨2024, 1, 2, 10, 0⟩) = some ⟨2024, 1, 2, 10, 0⟩ :=
  ⟨list_backups_parse_roundtrip.1 fsDup "/A" "/A"
      ⟨⟨2024, 1, 1, 10, 0⟩, "2024-01-01_10-00", "/A"⟩ (by decide),
   list_backups_parse_roundtrip.2 ⟨2024, 1, 2, 10, 0⟩ (by decide) (by decide)⟩

theorem scanRoot_nodup (fs : FS) (root : String) (ents : List DirEnt)
    (hsc : fs.scandir root = some ents) (hnd : (ents.map DirEnt.name).Nodup) :
    (scanRoot fs root).Nodup := by
  unfold scanRoot
  rw [hsc]
  have hsub : ∀ l : List DirEnt,
      ((l.filterMap fun en =>
          if en.isDir then (parse_backup_ts en.name).map (fun ts => (⟨ts, en.name, root⟩ : BEntry))
          else none).map BEntry.name).Sublist (l.map DirEnt.name) := by
    intro l
    induction l with
    | nil => simp
    | cons en rest ih =>
      cases hv : (if en.isDir then
          (parse_backup_ts en.name).map (fun ts => (⟨ts, en.name, root⟩ : BEntry))
          else none) with
      | none =>
        simp only [List.filterMap_cons, hv]
        exact ih.cons _
      | some e =>
        simp only [List.filterMap_cons, hv]
        have hname : e.name = en.name := by
          by_cases hd : en.isDir
          · rw [if_pos hd] at hv
            obtain ⟨ts, _, he⟩ := Option.map_eq_some'.mp hv
            subst he; rfl
          · rw [if_neg hd] at hv; cases hv
        simp only [List.map_cons, hname]
        exact ih.cons₂ _
  exact List.Nodup.of_map _ (List.Nodup.sublist (hsub ents) hnd)

/-- C5: the inventory is always sorted non-increasing by timestamp, and
when the primary and fallback roots resolve to the same absolute path the
root is scanned once — the result is exactly the single-root scan, with no
duplicate entries (given distinct directory names in the listing). -/
theorem list_backups_sorted_dedup (fs : FS) (b f : String) :
    List.Pairwise entGe (list_backups fs b f)
    ∧ (b ≠ "" → fs.abspath b = fs.abspath f →
        list_backups fs b f
          = sortBackups
              (if fs.isdir (fs.abspath b) then scanRoot fs (fs.abspath b) else [])
        ∧ ∀ ents, fs.scandir (fs.abspath b) = some ents →
            (ents.map DirEnt.name).Nodup → (list_backups fs b f).Nodup) := by
  constructor
  · exact List.sorted_insertionSort entGe _
  · intro hb habs
    have hstep1 : scanStep fs ([], []) b
        = ((if fs.isdir (fs.abspath b) then scanRoot fs (fs.abspath b) else []),
            [fs.abspath b]) := by
      rw [scanStep, if_neg hb, if_neg (List.not_mem_nil _)]
      by_cases hd : fs.isdir (fs.abspath b)
      · rw [if_pos hd, if_pos hd]
        simp
      · rw [if_neg hd, if_neg hd]
    have hstep2 : scanStep fs
        ((if fs.isdir (fs.abspath b) then scanRoot fs (fs.abspath b) else []),
          [fs.abspath b]) f
        = ((if fs.isdir (fs.abspath b) then scanRoot fs (fs.abspath b) else []),
            [fs.abspath b]) := by
      by_cases hf : f = ""
      · rw [scanStep, if_pos hf]
      · rw [scanStep, if_neg hf, if_pos (List.mem_singleton.mpr habs.symm)]
    have heq : list_backups fs b f
        = sortBackups
            (if fs.isdir (fs.abspath b) then scanRoot fs (fs.abspath b) else []) := by
      unfold list_backups
      rw [List.foldl_cons, hstep1, List.foldl_cons, hstep2, List.foldl_nil]
    refine ⟨heq, ?_⟩
    intro ents hsc hnd
    rw [heq]
    have hnodup : (if fs.isdir (fs.abspath b) then scanRoot fs (fs.abspath b) else []).Nodup := by
      by_cases hd : fs.isdir (fs.abspath b)
      · rw [if_pos hd]
        exact scanRoot_nodup fs _ ents hsc hnd
      · rw [if_neg hd]
        exact List.nodup_nil
    exact ((List.perm_insertionSort entGe _).nodup_iff).mpr hnodup

/-- Witness for C5 at a concrete input: both roots of `fsDup` resolve to
`/A`; the inventory is the single de-duplicated scan, sorted newest first. -/
theorem list_backups_sorted_dedup_witness :
    List.Pairwise entGe (list_backups fsDup "/b" "/b2")
    ∧ (list_backups fsDup "/b" "/b2"
        = sortBackups
            (if fsDup.isdir (fsDup.abspath "/b") then scanRoot fsDup (fsDup.abspath "/b") else [])
       ∧ ∀ ents, fsDup.scandir (fsDup.abspath "/b") = some ents →
            (ents.map DirEnt.name).Nodup → (list_backups fsDup "/b" "/b2").Nodup) :=
  ⟨(list_backups_sorted_dedup fsDup "/b" "/b2").1,
   (list_backups_sorted_dedup fsDup "/b" "/b2").2 (by decide) (by decide)⟩

/-! ## CPU delta sampler

`cpu_usage_str()` reads `(total, idle)` tick pairs twice; the embedded
function takes the two samples as arguments.  Python computes
`(1.0 - di/dt) * 100.0` in floating point and renders it with `f"{:.0f}"`,
which rounds half to even; the embedding computes the same quantity in ℚ
with explicit round-half-even. -/

/-- Round half to even (the rounding of Python's `f"{x:.0f}"`). -/
def rhe (q : ℚ) : ℤ :=
  if q - Rat.floor q < 1 / 2 then Rat.floor q
  else if 1 / 2 < q - Rat.floor q then Rat.floor q + 1
  else if 2 ∣ Rat.floor q then Rat.floor q else Rat.floor q + 1

/-- `cpu_usage_str()` given the two `(total, idle)` samples: `"n/a"` when
the total delta is not positive, otherwise the rounded percentage with a
`%` suffix. -/
def cpu_usage_str (t1 i1 t2 i2 : ℤ) : String :=
  if t2 - t1 ≤ 0 then "n/a"
  else toString (rhe ((1 - ((i2 - i1 : ℤ) : ℚ) / ((t2 - t1 : ℤ) : ℚ)) * 100)) ++ "%"

theorem rhe_bounds (q : ℚ) (h0 : 0 ≤ q) (h100 : q ≤ 100) :
    0 ≤ rhe q ∧ rhe q ≤ 100 := by
  have hfeq : Rat.floor q = ⌊q⌋ := rfl
  have hfl : (0 : ℤ) ≤ ⌊q⌋ := Int.floor_nonneg.mpr h0
  have hfu : ⌊q⌋ ≤ 100 := by
    have h := Int.floor_le_floor h100
    have h2 : ⌊(100 : ℚ)⌋ = 100 := by norm_num
    rw [h2] at h
    exact h
  have hfc : (⌊q⌋ : ℚ) ≤ q := Int.floor_le q
  have hkey : ¬ (q - (⌊q⌋ : ℚ) < 1 / 2) → ⌊q⌋ + 1 ≤ 100 := by
    intro hr
    push_neg at hr
    have ha : (⌊q⌋ : ℚ) + 1 / 2 ≤ q := by linarith
    have hb : (⌊q⌋ : ℚ) < 100 := by linarith
    have hc : ⌊q⌋ < 100 := by exact_mod_cast hb
    omega
  unfold rhe
  rw [hfeq]
  by_cases h1 : q - (⌊q⌋ : ℚ) < 1 / 2
  · rw [if_pos h1]
    exact ⟨hfl, hfu⟩
  · rw [if_neg h1]
    by_cases h2 : 1 / 2 < q - (⌊q⌋ : ℚ)
    · rw [if_pos h2]
      exact ⟨by omega, hkey h1⟩
    · rw [if_neg h2]
      by_cases h3 : (2 : ℤ) ∣ ⌊q⌋
      · rw [if_pos h3]
        exact ⟨hfl, hfu⟩
      · rw [if_neg h3]
        exact ⟨by omega, hkey h1⟩

/-- C6: the sampler returns `"n/a"` whenever the total-tick delta is `≤ 0`
(it never divides by zero), and for every valid pair of monotonically
increasing samples (`0 ≤ Δidle ≤ Δtotal`, `Δtotal > 0`) it returns a
percentage in `[0, 100]` rendered with a `%` suffix. -/
theorem cpu_usage_in_range (t1 i1 t2 i2 : ℤ) :
    (t2 - t1 ≤ 0 → cpu_usage_str t1 i1 t2 i2 = "n/a")
    ∧ (0 < t2 - t1 → 0 ≤ i2 - i1 → i2 - i1 ≤ t2 - t1 →
        ∃ n : ℕ, n ≤ 100 ∧ cpu_usage_str t1 i1 t2 i2 = toString n ++ "%") := by
  constructor
  · intro h
    rw [cpu_usage_str, if_pos h]
  · intro hdt hdi hle
    have hdtq : (0 : ℚ) < ((t2 - t1 : ℤ) : ℚ) := by exact_mod_cast hdt
    have hdiq : (0 : ℚ) ≤ ((i2 - i1 : ℤ) : ℚ) := by exact_mod_cast hdi
    have hleq : ((i2 - i1 : ℤ) : ℚ) ≤ ((t2 - t1 : ℤ) : ℚ) := by exact_mod_cast hle
    have hr1 : ((i2 - i1 : ℤ) : ℚ) / ((t2 - t1 : ℤ) : ℚ) ≤ 1 :=
      (div_le_one hdtq).mpr hleq
    have hr0 : (0 : ℚ) ≤ ((i2 - i1 : ℤ) : ℚ) / ((t2 - t1 : ℤ) : ℚ) :=
      div_nonneg hdiq hdtq.le
    have hq0 : (0 : ℚ) ≤ (1 - ((i2 - i1 : ℤ) : ℚ) / ((t2 - t1 : ℤ) : ℚ)) * 100 := by
      nlinarith
    have hq100 : (1 - ((i2 - i1 : ℤ) : ℚ) / ((t2 - t1 : ℤ) : ℚ)) * 100 ≤ 100 := by
      nlinarith
    obtain ⟨hl, hu⟩ := rhe_bounds _ hq0 hq100
    refine ⟨(rhe ((1 - ((i2 - i1 : ℤ) : ℚ) / ((t2 - t1 : ℤ) : ℚ)) * 100)).toNat, by omega, ?_⟩
    rw [cpu_usage_str, if_neg (not_le.mpr hdt)]
    congr 1
    rw [show rhe ((1 - ((i2 - i1 : ℤ) : ℚ) / ((t2 - t1 : ℤ) : ℚ)) * 100)
        = (((rhe ((1 - ((i2 - i1 : ℤ) : ℚ) / ((t2 - t1 : ℤ) : ℚ)) * 100)).toNat : ℕ) : ℤ)
      from (Int.toNat_of_nonneg hl).symm]
    rfl

/-- Witness for C6 at concrete samples: a non-positive delta yields
`"n/a"`, and the sample pair `(0,0) → (4,1)` yields a percentage. -/
theorem cpu_usage_in_range_witness :
    cpu_usage_str 4 0 2 0 = "n/a"
    ∧ ∃ n : ℕ, n ≤ 100 ∧ cpu_usage_str 0 0 4 1 = toString n ++ "%" :=
  ⟨(cpu_usage_in_range 4 0 2 0).1 (by decide),
   (cpu_usage_in_range 0 0 4 1).2 (by decide) (by decide) (by decide)⟩

/-! ## Container identity resolution

`docker_name_by_pid(pid)` reads `/proc/{pid}/cgroup` (here: an
`Option (List String)` of its lines, `none` for a read failure) and runs
`docker inspect` (here: `inspect`, the captured combined output of that
command — an `"ERR: …"`-prefixed sentinel on failure, exactly what `sh`
returns). -/

/-- Split off everything before the first `:`. -/
def splitOnceColon : List Char → Option (List Char × List Char)
  | [] => none
  | c :: rest =>
    if c = ':' then some ([], rest)
    else (splitOnceColon rest).map (fun p => (c :: p.1, p.2))

/-- `line.split(":", 2)`. -/
def splitColon2 (s : String) : List String :=
  match splitOnceColon s.data with
  | none => [s]
  | some (a, r1) =>
    match splitOnceColon r1 with
    | none => [String.mk a, String.mk r1]
    | some (b, r2) => [String.mk a, String.mk b, String.mk r2]

/-- The tail after the first occurrence of `m` (`path[path.find(m) + len(m):]`),
`none` when `m` does not occur. -/
def findTail (m : List Char) : List Char → Option (List Char)
  | [] => if m.isPrefixOf ([] : List Char) then some [] else none
  | c :: rest =>
    if m.isPrefixOf (c :: rest) then some (List.drop m.length (c :: rest))
    else findTail m rest

/-- One marker attempt: take the text after the marker, truncate at the
next `/` and then at the next `.`, and accept it only if it has at least
12 characters. -/
def tryMarker (path : List Char) (m : List Char) : Option (List Char) :=
  match findTail m path with
  | none => none
  | some tail =>
    if 12 ≤ ((tail.takeWhile (fun c => c ≠ '/')).takeWhile (fun c => c ≠ '.')).length then
      some ((tail.takeWhile (fun c => c ≠ '/')).takeWhile (fun c => c ≠ '.'))
    else none

/-- The two markers, tried in order for one cgroup path component. -/
def lineCid (path : List Char) : Option (List Char) :=
  match tryMarker path ("docker/".data) with
  | some cid => some cid
  | none => tryMarker path ("docker-".data)

/-- One cgroup line: split on `:` into at most 3 parts; only lines with
exactly 3 parts are inspected, on their path component. -/
def lineToCid (l : String) : Option (List Char) :=
  match splitColon2 l with
  | [_, _, path] => lineCid path.data
  | _ => none

/-- The scan over the cgroup lines: the first accepted identifier wins. -/
def extractCid : List String → Option (List Char)
  | [] => none
  | l :: rest =>
    match lineToCid l with
    | some cid => some cid
    | none => extractCid rest

/-- `name.lstrip("/")`: drop every leading slash. -/
def dropSlashes (s : String) : String :=
  String.mk (s.data.dropWhile (fun c => c = '/'))

/-- `docker_name_by_pid`, as a function of the cgroup file content and of
the inspection command's captured output. -/
def docker_name_by_pid (cg : Option (List String)) (inspect : String → String) :
    Option String :=
  match cg with
  | none => none
  | some lines =>
    match extractCid lines with
    | none => none
    | some cid =>
      if List.isPrefixOf ("ERR".data) (inspect (String.mk cid)).data
          ∨ inspect (String.mk cid) = "" then none
      else some (dropSlashes (inspect (String.mk cid)))

theorem tryMarker_accepted (path m : List Char) (cid : List Char)
    (h : tryMarker path m = some cid) :
    12 ≤ cid.length ∧ '/' ∉ cid ∧ '.' ∉ cid := by
  unfold tryMarker at h
  cases hf : findTail m path with
  | none => rw [hf] at h; cases h
  | some tail =>
    rw [hf] at h
    dsimp only at h
    by_cases hl : 12 ≤ ((tail.takeWhile (fun c => c ≠ '/')).takeWhile (fun c => c ≠ '.')).length
    · rw [if_pos hl] at h
      injection h with h
      subst h
      refine ⟨hl, ?_, ?_⟩
      · intro hmem
        have hmem2 := (List.takeWhile_sublist (fun c => c ≠ '.')).mem hmem
        have := List.mem_takeWhile_imp hmem2
        simp at this
      · intro hmem
        have := List.mem_takeWhile_imp hmem
        simp at this
    · rw [if_neg hl] at h
      cases h

theorem lineToCid_accepted (l : String) (cid : List Char)
    (h : lineToCid l = some cid) : 12 ≤ cid.length ∧ '/' ∉ cid ∧ '.' ∉ cid := by
  unfold lineToCid at h
  rcases hsp : splitColon2 l with _ | ⟨a, _ | ⟨b, _ | ⟨c, _ | ⟨d, tl⟩⟩⟩⟩ <;>
      rw [hsp] at h <;> dsimp only at h
  · cases h
  · cases h
  · cases h
  · unfold lineCid at h
    cases ht : tryMarker c.data ("docker/".data) with
    | some cid2 =>
      rw [ht] at h
      dsimp only at h
      injection h with h
      subst h
      exact tryMarker_accepted _ _ _ ht
    | none =>
      rw [ht] at h
      dsimp only at h
      exact tryMarker_accepted _ _ _ h
  · cases h

theorem extractCid_accepted (lines : List String) (cid : List Char)
    (h : extractCid lines = some cid) : 12 ≤ cid.length ∧ '/' ∉ cid ∧ '.' ∉ cid := by
  induction lines with
  | nil => cases h
  | cons l rest ih =>
    unfold extractCid at h
    cases hl : lineToCid l with
    | some cid2 =>
      rw [hl] at h
      injection h with h
      subst h
      exact lineToCid_accepted _ _ hl
    | none =>
      rw [hl] at h
      exact ih h

/-- C3 counterexample: the code applies `lstrip("/")`, which strips every
leading slash, not a single one: an inspection output `"//web"` resolves
to `"web"`, not to `"/web"`. -/
theorem docker_name_strips_all_slashes :
    docker_name_by_pid (some ["0::/docker/abcdefabcdef1"]) (fun _ => "//web")
        = some "web"
    ∧ some ("web" : String) ≠ some "/web" :=
  ⟨by decide, by decide⟩

/-- C3 (amended): a candidate identifier (the marker's tail truncated at
the next `/` or `.`) is accepted only when it has at least 12 characters;
the first accepted identifier stops the scan; every failure (missing
cgroup file, no accepted identifier, inspection error or empty output)
yields `none`; and on success the resolver returns the inspection output
with all leading `/` characters stripped. -/
theorem docker_name_resolution (inspect : String → String) (lines : List String) :
    docker_name_by_pid none inspect = none
    ∧ (∀ cid, extractCid lines = some cid → 12 ≤ cid.length ∧ '/' ∉ cid ∧ '.' ∉ cid)
    ∧ (∀ (l : String) (rest : List String) (cid : List Char),
        lineToCid l = some cid → extractCid (l :: rest) = some cid)
    ∧ (∀ (l : String) (rest : List String),
        lineToCid l = none → extractCid (l :: rest) = extractCid rest)
    ∧ (extractCid lines = none → docker_name_by_pid (some lines) inspect = none)
    ∧ (∀ cid, extractCid lines = some cid →
        ((List.isPrefixOf ("ERR".data) (inspect (String.mk cid)).data
            ∨ inspect (String.mk cid) = "") →
          docker_name_by_pid (some lines) inspect = none)
        ∧ (¬ (List.isPrefixOf ("ERR".data) (inspect (String.mk cid)).data
            ∨ inspect (String.mk cid) = "") →
          docker_name_by_pid (some lines) inspect
            = some (dropSlashes (inspect (String.mk cid))))) := by
  refine ⟨rfl, fun cid h => extractCid_accepted lines cid h, ?_, ?_, ?_, ?_⟩
  · intro l rest cid h
    show (match lineToCid l with
      | some cid => some cid
      | none => extractCid rest) = some cid
    rw [h]
  · intro l rest h
    show (match lineToCid l with
      | some cid => some cid
      | none => extractCid rest) = extractCid rest
    rw [h]
  · intro h
    show (match extractCid lines with
      | none => none
      | some cid =>
        if List.isPrefixOf ("ERR".data) (inspect (String.mk cid)).data
            ∨ inspect (String.mk cid) = "" then none
        else some (dropSlashes (inspect (String.mk cid)))) = none
    rw [h]
  · intro cid h
    constructor
    · intro herr
      show (match extractCid lines with
        | none => none
        | some cid =>
          if List.isPrefixOf ("ERR".data) (inspect (String.mk cid)).data
              ∨ inspect (String.mk cid) = "" then none
          else some (dropSlashes (inspect (String.mk cid)))) = none
      rw [h]
      dsimp only
      rw [if_pos herr]
    · intro herr
      show (match extractCid lines with
        | none => none
        | some cid =>
          if List.isPrefixOf ("ERR".data) (inspect (String.mk cid)).data
              ∨ inspect (String.mk cid) = "" then none
          else some (dropSlashes (inspect (String.mk cid)))) = _
      rw [h]
      dsimp only
      rw [if_neg herr]

/-- Witness for C3 at concrete inputs: one cgroup line with a 16-character
identifier after `docker/`, inspection output `"/web"`, resolves to `"web"`. -/
theorem docker_name_resolution_witness :
    (12 ≤ ("0123456789abcdef".data : List Char).length
      ∧ '/' ∉ ("0123456789abcdef".data : List Char)
      ∧ '.' ∉ ("0123456789abcdef".data : List Char))
    ∧ docker_name_by_pid (some ["0::/docker/0123456789abcdef.scope"])
        (fun _ => "/web") = some "web" := by
  refine ⟨(docker_name_resolution (fun _ => "/web")
      ["0::/docker/0123456789abcdef.scope"]).2.1 "0123456789abcdef".data (by decide), ?_⟩
  have h := (docker_name_resolution (fun _ => "/web")
      ["0::/docker/0123456789abcdef.scope"]).2.2.2.2.2 "0123456789abcdef".data
      (by decide)
  have h2 := h.2 (by decide)
  rw [h2]
  decide

/-! ## Process ranker

`top5_processes(sort)` parses the captured output of the external listing
command (here: its lines) and formats the surviving rows; container-name
resolution is the collaborator function `resolve` (the embedded
`docker_name_by_pid` applied to the process's cgroup data). -/

/-- `f"{s:>5}"`-style right alignment: pad on the left with spaces. -/
def padLeft (w : Nat) (s : String) : String :=
  String.mk (List.replicate (w - s.length) ' ') ++ s

/-- `ln.split(None, k)`: split on whitespace runs, at most `k` splits, the
remainder (leading whitespace stripped) returned verbatim as a last piece. -/
def splitTok (k : Nat) (cs : List Char) : List (List Char) :=
  match cs.dropWhile Char.isWhitespace with
  | [] => []
  | c :: rest =>
    match k with
    | 0 => [c :: rest]
    | k2 + 1 =>
      (c :: rest).takeWhile (fun ch => !ch.isWhitespace)
        :: splitTok k2 ((c :: rest).dropWhile (fun ch => !ch.isWhitespace))

/-- One row of the listing: rows with fewer than 4 whitespace-separated
fields yield `none`; a surviving row is formatted with fixed-width
columns and an optional docker suffix for `apache2`. -/
def formatRow (resolve : String → Option String) (ln : String) : Option String :=
  match splitTok 3 ln.data with
  | [pid, pcpu, pmem, comm] =>
    some (padLeft 5 (String.mk pid) ++ "  " ++ padLeft 5 (String.mk pcpu) ++ "%  "
      ++ padLeft 5 (String.mk pmem) ++ "%  " ++ String.mk comm
      ++ (if String.mk comm = "apache2" then
            match resolve (String.mk pid) with
            | some n => " (docker: " ++ n ++ ")"
            | none => ""
          else ""))
  | _ => none

/-- `top5_processes`, as a function of the listing command's output lines. -/
def top5_processes (lines : List String) (resolve : String → Option String) : String :=
  if lines.length < 2 then "n/a"
  else if lines.tail.filterMap (formatRow resolve) = [] then "n/a"
  else String.intercalate "\n" (lines.tail.filterMap (formatRow resolve))

theorem padLeft_length (w : Nat) (s : String) :
    (padLeft w s).length = (w - s.length) + s.length := by
  rw [padLeft, String.length_append, String.length_mk, List.length_replicate]

theorem formatRow_none_iff (resolve : String → Option String) (ln : String) :
    formatRow resolve ln = none ↔ (splitTok 3 ln.data).length ≠ 4 := by
  unfold formatRow
  rcases hsp : splitTok 3 ln.data with _ | ⟨a, _ | ⟨b, _ | ⟨c, _ | ⟨d, _ | ⟨e, tl⟩⟩⟩⟩⟩ <;>
      dsimp only <;> simp

theorem formatRow_some_length (resolve : String → Option String) (ln r : String)
    (h : formatRow resolve ln = some r) : 23 ≤ r.length := by
  unfold formatRow at h
  rcases hsp : splitTok 3 ln.data with _ | ⟨a, _ | ⟨b, _ | ⟨c, _ | ⟨d, _ | ⟨e, tl⟩⟩⟩⟩⟩ <;>
      rw [hsp] at h <;> dsimp only at h
  · cases h
  · cases h
  · cases h
  · cases h
  · injection h with h
    subst h
    simp only [String.length_append, padLeft_length]
    have h2 : ("  " : String).length = 2 := rfl
    have h3 : ("%  " : String).length = 3 := rfl
    rw [h2, h3]
    omega
  · cases h

/-- C8: the ranker returns `"n/a"` exactly when the output has fewer than
2 lines or no row with at least 4 whitespace-separated fields survives;
the header row is dropped (the output never depends on it), and short rows
are skipped silently. -/
theorem top5_processes_spec (lines : List String) (resolve : String → Option String) :
    (lines.length < 2 → top5_processes lines resolve = "n/a")
    ∧ (∀ (hd1 hd2 : String) (rest : List String),
        top5_processes (hd1 :: rest) resolve = top5_processes (hd2 :: rest) resolve)
    ∧ (top5_processes lines resolve = "n/a" ↔
        lines.length < 2 ∨ ∀ l ∈ lines.tail, (splitTok 3 l.data).length ≠ 4) := by
  refine ⟨?_, ?_, ?_, ?_⟩
  · intro h
    rw [top5_processes, if_pos h]
  · intro hd1 hd2 rest
    simp only [top5_processes, List.tail_cons, List.length_cons]
  · intro heq
    by_cases hlen : lines.length < 2
    · exact Or.inl hlen
    · refine Or.inr ?_
      intro l hl
      by_contra hne
      have hne4 : (splitTok 3 l.data).length = 4 := by omega
      have hsome : ∃ r, formatRow resolve l = some r := by
        cases hfr : formatRow resolve l with
        | some r => exact ⟨r, rfl⟩
        | none =>
          exact absurd ((formatRow_none_iff resolve l).mp hfr) (by rw [hne4]; simp)
      obtain ⟨r, hr⟩ := hsome
      have hmem : r ∈ lines.tail.filterMap (formatRow resolve) :=
        List.mem_filterMap.mpr ⟨l, hl, hr⟩
      have hnonnil : lines.tail.filterMap (formatRow resolve) ≠ [] := by
        intro hnil
        rw [hnil] at hmem
        exact List.not_mem_nil r hmem
      rw [top5_processes, if_neg hlen, if_neg hnonnil] at heq
      rcases hrows : lines.tail.filterMap (formatRow resolve) with _ | ⟨r0, rs⟩
      · exact hnonnil hrows
      · rw [hrows] at heq
        obtain ⟨l0, _, hl0⟩ := List.mem_filterMap.mp
          (by rw [hrows]; exact List.mem_cons_self r0 rs)
        have h23 : 23 ≤ r0.length := formatRow_some_length resolve l0 r0 hl0
        have hgo : String.intercalate "\n" (r0 :: rs) = String.intercalate.go r0 "\n" rs := rfl
        have hlth := congrArg String.length heq
        rw [hgo, length_intercalate_go] at hlth
        have hna : ("n/a" : String).length = 3 := rfl
        rw [hna] at hlth
        omega
  · intro hor
    rcases hor with hlen | hall
    · rw [top5_processes, if_pos hlen]
    · by_cases hlen : lines.length < 2
      · rw [top5_processes, if_pos hlen]
      · have hnil : lines.tail.filterMap (formatRow resolve) = [] := by
          rw [List.filterMap_eq_nil_iff]
          intro l hl
          exact (formatRow_none_iff resolve l).mpr (hall l hl)
        rw [top5_processes, if_neg hlen, if_pos hnil]

/-- Witness for C8 at concrete inputs: a one-line output yields `"n/a"`,
and an output whose only data row has four fields does not. -/
theorem top5_processes_spec_witness :
    top5_processes ["hdr"] (fun _ => none) = "n/a"
    ∧ (top5_processes ["h", "12 3.0 4.5 bash"] (fun _ => none) = "n/a" ↔
        (["h", "12 3.0 4.5 bash"] : List String).length < 2
          ∨ ∀ l ∈ (["h", "12 3.0 4.5 bash"] : List String).tail,
              (splitTok 3 l.data).length ≠ 4) :=
  ⟨(top5_processes_spec ["hdr"] (fun _ => none)).1 (by decide),
   (top5_processes_spec ["h", "12 3.0 4.5 bash"] (fun _ => none)).2.2⟩

/-! ## Recursive sizes and file manifests

`dir_size_bytes(path)` walks the tree skipping symbolic links and swallowing
per-file stat errors; the manifest collection in `backup_files_text` lists
every walked file with its `os.path.getsize` (which follows links), `0` on
`OSError`. -/

/-- `dir_size_bytes(path)`: the walk loop — skip links, add `getsize`,
`OSError` contributes nothing. -/
def dir_size_bytes (fs : FS) (path : String) : Nat :=
  (fs.walkEntries path).foldl
    (fun total e => if e.isLink then total else total + e.size.getD 0) 0

/-- Python string comparison: lexicographic on code points. -/
def charListLe : List Char → List Char → Bool
  | [], _ => true
  | _ :: _, [] => false
  | a :: as, b :: bs =>
    if a.toNat < b.toNat then true
    else if b.toNat < a.toNat then false
    else charListLe as bs

def strLe (a b : String) : Bool := charListLe a.data b.data

/-- The manifest sort key: relative path, lexicographically. -/
def fileLe (a b : String × Nat) : Prop := strLe a.1 b.1 = true

instance : DecidableRel fileLe := fun a b => by
  unfold fileLe
  infer_instance

/-- The `files` list of `backup_files_text`: every walked file with its
followed-link size (`0` on error), sorted by relative path (Python's
stable sort). -/
def backupFilesList (fs : FS) (path : String) : List (String × Nat) :=
  List.insertionSort fileLe
    ((fs.walkEntries path).map (fun e => (e.relPath, e.size.getD 0)))

theorem charListLe_total : ∀ (a b : List Char),
    charListLe a b = true ∨ charListLe b a = true := by
  intro a
  induction a with
  | nil => intro b; left; rfl
  | cons x xs ih =>
    intro b
    cases b with
    | nil => right; rfl
    | cons y ys =>
      rcases Nat.lt_trichotomy x.toNat y.toNat with h | h | h
      · left
        simp only [charListLe]
        rw [if_pos h]
      · have hxy : ¬ x.toNat < y.toNat := by omega
        have hyx : ¬ y.toNat < x.toNat := by omega
        rcases ih ys with h2 | h2
        · left
          simp only [charListLe]
          rw [if_neg hxy, if_neg hyx]
          exact h2
        · right
          simp only [charListLe]
          rw [if_neg hyx, if_neg hxy]
          exact h2
      · right
        simp only [charListLe]
        rw [if_pos h]

theorem charListLe_trans : ∀ (a b c : List Char),
    charListLe a b = true → charListLe b c = true → charListLe a c = true := by
  intro a
  induction a with
  | nil => intro b c _ _; rfl
  | cons x xs ih =>
    intro b c h1 h2
    cases b with
    | nil => exact absurd h1 (by simp [charListLe])
    | cons y ys =>
      cases c with
      | nil => exact absurd h2 (by simp [charListLe])
      | cons z zs =>
        simp only [charListLe] at h1 h2 ⊢
        rcases Nat.lt_trichotomy x.toNat y.toNat with hxy | hxy | hxy
        · rcases Nat.lt_trichotomy y.toNat z.toNat with hyz | hyz | hyz
          · rw [if_pos (by omega : x.toNat < z.toNat)]
          · rw [if_pos (by omega : x.toNat < z.toNat)]
          · rw [if_neg (by omega : ¬ y.toNat < z.toNat),
              if_pos (by omega : z.toNat < y.toNat)] at h2
            cases h2
        · rcases Nat.lt_trichotomy y.toNat z.toNat with hyz | hyz | hyz
          · rw [if_pos (by omega : x.toNat < z.toNat)]
          · rw [if_neg (by omega : ¬ x.toNat < z.toNat),
              if_neg (by omega : ¬ z.toNat < x.toNat)]
            rw [if_neg (by omega : ¬ x.toNat < y.toNat),
              if_neg (by omega : ¬ y.toNat < x.toNat)] at h1
            rw [if_neg (by omega : ¬ y.toNat < z.toNat),
              if_neg (by omega : ¬ z.toNat < y.toNat)] at h2
            exact ih ys zs h1 h2
          · rw [if_neg (by omega : ¬ y.toNat < z.toNat),
              if_pos (by omega : z.toNat < y.toNat)] at h2
            cases h2
        · rw [if_neg (by omega : ¬ x.toNat < y.toNat),
            if_pos (by omega : y.toNat < x.toNat)] at h1
          cases h1

instance : IsTotal (String × Nat) fileLe :=
  ⟨fun a b => (charListLe_total a.1.data b.1.data).imp id id⟩

instance : IsTrans (String × Nat) fileLe :=
  ⟨fun _ _ _ h1 h2 => charListLe_trans _ _ _ h1 h2⟩

theorem dir_size_foldl (l : List WalkEnt) :
    ∀ n : Nat,
      l.foldl (fun total e => if e.isLink then total else total + e.size.getD 0) n
        = n + (l.map (fun e => if e.isLink then 0 else e.size.getD 0)).sum := by
  induction l with
  | nil => intro n; simp
  | cons e rest ih =>
    intro n
    rw [List.foldl_cons, List.map_cons, List.sum_cons, ih]
    by_cases h : e.isLink
    · simp [h]
    · simp [h]
      omega

/-- C9: the recursive size is the sum over the walked files of their size,
where links contribute 0 (they are neither followed nor counted) and stat
errors contribute 0; in particular the total does not depend on the sizes
of link targets at all. -/
theorem dir_size_spec (fs : FS) (p : String) :
    dir_size_bytes fs p
        = ((fs.walkEntries p).map (fun e => if e.isLink then 0 else e.size.getD 0)).sum
    ∧ ∀ (fs2 : FS),
        List.Forall₂
          (fun a b : WalkEnt => a.isLink = b.isLink ∧ (a.isLink = false → a.size = b.size))
          (fs.walkEntries p) (fs2.walkEntries p) →
        dir_size_bytes fs p = dir_size_bytes fs2 p := by
  constructor
  · rw [dir_size_bytes, dir_size_foldl]
    omega
  · intro fs2 hrel
    rw [dir_size_bytes, dir_size_bytes, dir_size_foldl, dir_size_foldl]
    have hsum : ∀ (l1 l2 : List WalkEnt),
        List.Forall₂
          (fun a b : WalkEnt => a.isLink = b.isLink ∧ (a.isLink = false → a.size = b.size))
          l1 l2 →
        (l1.map (fun e => if e.isLink then 0 else e.size.getD 0)).sum
          = (l2.map (fun e => if e.isLink then 0 else e.size.getD 0)).sum := by
      intro l1 l2 hf
      induction hf with
      | nil => rfl
      | cons hab _ ih =>
        rename_i a b as bs _
        rw [List.map_cons, List.map_cons, List.sum_cons, List.sum_cons, ih]
        rcases hab with ⟨hl, hs⟩
        by_cases ha : a.isLink
        · rw [if_pos ha, if_pos (hl ▸ ha)]
        · have hb : b.isLink = false := by rw [← hl]; exact Bool.not_eq_true _ ▸ (by simpa using ha)
          rw [if_neg ha, if_neg (by simp [hb]), hs (by simpa using ha)]
    rw [hsum _ _ hrel]

/-- A walk with one regular file and one symbolic link to a large file. -/
def fsLinks : FS where
  abspath := fun s => s
  isdir := fun _ => false
  scandir := fun _ => none
  walkEntries := fun _ => [⟨"x.txt", false, some 5⟩, ⟨"big.link", true, some 100⟩]

/-- `fsLinks` with the link's target grown much larger. -/
def fsLinks2 : FS where
  abspath := fun s => s
  isdir := fun _ => false
  scandir := fun _ => none
  walkEntries := fun _ => [⟨"x.txt", false, some 5⟩, ⟨"big.link", true, some 999999⟩]

/-- Witness for C9 at a concrete input: growing the link's target does not
change the recursive size. -/
theorem dir_size_spec_witness :
    dir_size_bytes fsLinks "/p" = dir_size_bytes fsLinks2 "/p" :=
  (dir_size_spec fsLinks "/p").2 fsLinks2 (by
    show List.Forall₂ _
      ([⟨"x.txt", false, some 5⟩, ⟨"big.link", true, some 100⟩] : List WalkEnt)
      ([⟨"x.txt", false, some 5⟩, ⟨"big.link", true, some 999999⟩] : List WalkEnt)
    refine List.Forall₂.cons ⟨rfl, fun _ => rfl⟩ ?_
    refine List.Forall₂.cons ⟨rfl, fun h => by cases h⟩ ?_
    exact List.Forall₂.nil)

theorem walk_sum_split (l : List WalkEnt) :
    (l.map (fun e => e.size.getD 0)).sum
      = (l.map (fun e => if e.isLink then 0 else e.size.getD 0)).sum
        + ((l.filter (fun e => e.isLink)).map (fun e => e.size.getD 0)).sum := by
  induction l with
  | nil => rfl
  | cons e rest ih =>
    by_cases h : e.isLink
    · simp only [List.map_cons, List.sum_cons, List.filter_cons, h, if_pos, ih]
      simp [h]
      omega
    · simp only [List.map_cons, List.sum_cons, List.filter_cons, ih]
      simp [h]
      omega

/-- C10: the manifest lists every walked entry — symbolic links included —
with its followed-link size (`0` on failure), so the sum of manifest sizes
equals the recursive size plus the followed sizes of the links, and
strictly exceeds the recursive size as soon as one link has a positive
followed size. -/
theorem manifest_counts_links (fs : FS) (p : String) :
    ((backupFilesList fs p).map Prod.snd).sum
        = dir_size_bytes fs p
          + (((fs.walkEntries p).filter (fun e => e.isLink)).map
              (fun e => e.size.getD 0)).sum
    ∧ (∀ e ∈ fs.walkEntries p, (e.relPath, e.size.getD 0) ∈ backupFilesList fs p)
    ∧ ((∃ e ∈ fs.walkEntries p, e.isLink = true ∧ 0 < e.size.getD 0) →
        dir_size_bytes fs p < ((backupFilesList fs p).map Prod.snd).sum) := by
  have hperm : backupFilesList fs p
      |>.Perm ((fs.walkEntries p).map (fun e => (e.relPath, e.size.getD 0))) :=
    List.perm_insertionSort fileLe _
  have hsum : ((backupFilesList fs p).map Prod.snd).sum
      = ((fs.walkEntries p).map (fun e => e.size.getD 0)).sum := by
    have := (hperm.map Prod.snd).sum_eq
    rw [this, List.map_map]
    rfl
  have hsplit := walk_sum_split (fs.walkEntries p)
  have hdir : dir_size_bytes fs p
      = ((fs.walkEntries p).map (fun e => if e.isLink then 0 else e.size.getD 0)).sum := by
    rw [dir_size_bytes, dir_size_foldl]
    omega
  refine ⟨by rw [hsum, hdir]; exact hsplit, ?_, ?_⟩
  · intro e he
    exact hperm.mem_iff.mpr (List.mem_map_of_mem _ he)
  · rintro ⟨e, he, hlink, hpos⟩
    have hmem : e.size.getD 0
        ∈ ((fs.walkEntries p).filter (fun e => e.isLink)).map (fun e => e.size.getD 0) :=
      List.mem_map_of_mem _ (List.mem_filter.mpr ⟨he, by simp [hlink]⟩)
    have hle : e.size.getD 0
        ≤ (((fs.walkEntries p).filter (fun e => e.isLink)).map
            (fun e => e.size.getD 0)).sum :=
      List.single_le_sum (fun x _ => Nat.zero_le x) _ hmem
    rw [hsum, hdir]
    omega

/-- Witness for C10 at a concrete input: `fsLinks` has a 100-byte link
target, so the manifest sum strictly exceeds the recursive size. -/
theorem manifest_counts_links_witness :
    dir_size_bytes fsLinks "/p" < ((backupFilesList fsLinks "/p").map Prod.snd).sum :=
  (manifest_counts_links fsLinks "/p").2.2
    ⟨⟨"big.link", true, some 100⟩, by decide, rfl, by decide⟩

/-! ## Report assembly: backup manifest and index reports

`human_size` is embedded in exact rational arithmetic (the code divides a
float by 1024 per unit); `f"{x:.2f}"` is round-half-even to two decimals. -/

/-- `f"{q:.2f}"` for a nonnegative rational. -/
def fmt2 (q : ℚ) : String :=
  toString ((rhe (q * 100)).toNat / 100) ++ "."
    ++ (if (rhe (q * 100)).toNat % 100 < 10
        then "0" ++ toString ((rhe (q * 100)).toNat % 100)
        else toString ((rhe (q * 100)).toNat % 100))

/-- The unit loop of `human_size`. -/
def human_size_go : ℚ → List String → String
  | _, [] => ""
  | size, u :: rest =>
    if size < 1024 ∨ rest = [] then
      if u = "B" then toString (Rat.floor size).toNat ++ " " ++ u
      else fmt2 size ++ " " ++ u
    else human_size_go (size / 1024) rest

/-- `human_size(num_bytes)`: binary-prefixed rendering. -/
def human_size (n : Nat) : String :=
  human_size_go (n : ℚ) ["B", "KiB", "MiB", "GiB", "TiB"]

/-- `os.path.join(base_dir, folder)` for a relative second component. -/
def joinPath (a b : String) : String := a ++ "/" ++ b

/-- The part of `backup_files_text` after the selected entry is fetched:
missing directory message, empty-manifest message, or the bounded file
report. -/
def backupManifestFor (fs : FS) (index : Int) (e : BEntry) : String :=
  if fs.isdir (joinPath e.root e.name) = false then
    "```\nBackup #" ++ toString index ++ " nerastas diske.\n```"
  else if backupFilesList fs (joinPath e.root e.name) = [] then
    "```\nBackup #" ++ toString index ++ " (" ++ tsDisplay e.ts ++ ") neturi failų.\n```"
  else
    fence (buildBoundedReport
      ["Backup #" ++ toString index ++ " failai (" ++ tsDisplay e.ts ++ "):"]
      ((backupFilesList fs (joinPath e.root e.name)).map
        (fun pr => pr.1 ++ " (" ++ human_size pr.2 ++ ")"))
      1800 filesTrailer)

/-- `backup_files_text(index)`: empty-inventory message, out-of-range
message, or the manifest view of the selected entry. -/
def backup_files_text (fs : FS) (b f : String) (index : Int) : String :=
  if list_backups fs b f = [] then "```\nBackup sąrašas tuščias.\n```"
  else if index < 1 ∨ ((list_backups fs b f).length : Int) < index then
    "```\nNeteisingas numeris: " ++ toString index ++ ". Galimi: 1.."
      ++ toString (list_backups fs b f).length ++ "\n```"
  else
    backupManifestFor fs index ((list_backups fs b f).getD (index - 1).toNat default)

/-- `backups_index_text()`: the numbered newest-first list under the
shared budget, or the empty-inventory message naming both roots. -/
def backups_index_text (fs : FS) (b f : String) : String :=
  if list_backups fs b f = [] then
    "```\nBackup sąrašas tuščias.\nTikrinti katalogai: " ++ b ++ ", " ++ f ++ "\n```"
  else
    fence (buildBoundedReport ["Backup sąrašas (naujausi viršuje):"]
      ((list_backups fs b f).enum.map
        (fun pr => padLeft 3 (toString (pr.1 + 1)) ++ ". " ++ tsDisplay pr.2.ts))
      1800 idxTrailer)

/-- A filesystem with no backups at all. -/
def fsEmpty : FS where
  abspath := fun s => s
  isdir := fun _ => false
  scandir := fun _ => none
  walkEntries := fun _ => []

/-- C7 counterexample: with an empty inventory (N = 0) every index is out
of range, yet the report is the empty-inventory message, not the
"invalid number, valid range 1..N" message the claim requires. -/
theorem backup_files_empty_inventory_message :
    backup_files_text fsEmpty "/b" "/f" 5 = "```\nBackup sąrašas tuščias.\n```"
    ∧ backup_files_text fsEmpty "/b" "/f" 5
        ≠ "```\nNeteisingas numeris: 5. Galimi: 1..0\n```" :=
  ⟨by decide, by decide⟩

/-- C7 (amended): when the inventory is nonempty, out-of-range indices
(`index < 1` or `index > N`) produce the explicit invalid-number message
naming the range `1..N`; for an in-range index whose backup directory no
longer exists on disk the report is the "not found on disk" message;
otherwise, when the backup contains at least one file, the report is the
bounded file list, sorted lexicographically by relative path (an empty
inventory yields the empty-list message instead, and an empty backup a
"has no files" message). -/
theorem backup_files_report (fs : FS) (b f : String) (i : Int) :
    (list_backups fs b f ≠ [] → (i < 1 ∨ ((list_backups fs b f).length : Int) < i) →
      backup_files_text fs b f i
        = "```\nNeteisingas numeris: " ++ toString i ++ ". Galimi: 1.."
            ++ toString (list_backups fs b f).length ++ "\n```")
    ∧ (∀ e : BEntry, list_backups fs b f ≠ [] →
        1 ≤ i → i ≤ ((list_backups fs b f).length : Int) →
        (list_backups fs b f).getD (i - 1).toNat default = e →
        backup_files_text fs b f i = backupManifestFor fs i e
        ∧ (fs.isdir (joinPath e.root e.name) = false →
            backupManifestFor fs i e
              = "```\nBackup #" ++ toString i ++ " nerastas diske.\n```")
        ∧ (fs.isdir (joinPath e.root e.name) = true →
            backupFilesList fs (joinPath e.root e.name) ≠ [] →
            backupManifestFor fs i e
              = fence (buildBoundedReport
                  ["Backup #" ++ toString i ++ " failai (" ++ tsDisplay e.ts ++ "):"]
                  ((backupFilesList fs (joinPath e.root e.name)).map
                    (fun pr => pr.1 ++ " (" ++ human_size pr.2 ++ ")"))
                  1800 filesTrailer)
            ∧ List.Pairwise fileLe (backupFilesList fs (joinPath e.root e.name)))) := by
  constructor
  · intro hne hrange
    rw [backup_files_text, if_neg hne, if_pos hrange]
  · intro e hne h1 h2 hgetd
    refine ⟨?_, ?_, ?_⟩
    · rw [backup_files_text, if_neg hne,
        if_neg (by simp only [not_or, not_lt]; exact ⟨h1, h2⟩), hgetd]
    · intro hdir
      rw [backupManifestFor, if_pos hdir]
    · intro hdir hfl
      constructor
      · rw [backupManifestFor, if_neg (by simp [hdir]), if_neg hfl]
      · unfold backupFilesList
        exact List.sorted_insertionSort fileLe _

/-- A filesystem with one backup holding two files in unsorted walk order. -/
def fsFiles : FS where
  abspath := fun s => s
  isdir := fun s => s = "/b" ∨ s = "/b/2024-01-02_10-00"
  scandir := fun s => if s = "/b" then some [⟨"2024-01-02_10-00", true⟩] else none
  walkEntries := fun s =>
    if s = "/b/2024-01-02_10-00" then
      [⟨"b.txt", false, some 5⟩, ⟨"a/x.txt", false, some 10⟩]
    else []

/-- Witness for the amended C7 at concrete inputs: index 7 into the
one-entry inventory of `fsFiles` yields the invalid-number message, and
the selected backup's manifest is sorted. -/
theorem backup_files_report_witness :
    backup_files_text fsFiles "/b" "/f" 7
        = "```\nNeteisingas numeris: 7. Galimi: 1..1\n```"
    ∧ List.Pairwise fileLe (backupFilesList fsFiles "/b/2024-01-02_10-00") := by
  constructor
  · have h := (backup_files_report fsFiles "/b" "/f" 7).1 (by decide) (by decide)
    rw [h]
    decide
  · have h2 := (backup_files_report fsFiles "/b" "/f" 1).2
      ((list_backups fsFiles "/b" "/f").getD ((1 : Int) - 1).toNat default)
      (by decide) (by decide) (by decide) rfl
    have h3 := (h2.2.2 (by decide) (by decide)).2
    exact h3

end StatsBot
